import Mathlib

/-!
Verification of the Testr plan-to-report run engine.

This file gives a shallow embedding of the core logic of the Testr
single-page application: the plan parser (`parsePlan`), the report
builder (`getCategorySummary` / `buildReport`), the cursor-based run
engine (`commitVerdict`, `recordVerdict`, `undoLast`, `finishRun`) and
the capped report history, all translated from the React component in
the repository.  The surrounding browser plumbing (JSON.parse itself,
`window.innerWidth`, `crypto.randomUUID`, wall-clock time, the DOM) is
external to the embedded core and enters as explicit parameters: the
outcome of JSON.parse is an `Option Json` value, and report identity /
timestamp generation is an explicit `Gen` record.
-/

namespace Testr

/-- The two verdicts a tester can record for a test case. -/
inductive Verdict where
  | pass
  | fail
deriving DecidableEq, Repr

/-- One authored test case: `{ action, result }`. -/
structure PlanGroup where
  action : String
  result : String
deriving DecidableEq, Repr

/-- The source plan: an ordered mapping from category name to its test
cases.  JavaScript objects preserve (string-keyed) insertion order, so
the mapping is embedded as an ordered association list. -/
abbrev PlanInput := List (String × List PlanGroup)

/-- A flattened, denormalized execution unit. -/
structure FlatTest where
  id : String
  category : String
  action : String
  expected : String
  sequence : Nat
deriving DecidableEq, Repr

/-- A flattened test together with its committed verdict and comment. -/
structure TestResult extends FlatTest where
  verdict : Verdict
  comment : String
deriving DecidableEq, Repr

/-- Per-category pass/fail/total counts. -/
structure CatCount where
  passed : Nat
  failed : Nat
  total : Nat
deriving DecidableEq, Repr

/-- The by-category summary: a JavaScript object keyed by category name,
embedded as an ordered association list. -/
abbrev CategorySummary := List (String × CatCount)

/-- A saved report, as appended to the history list. -/
structure SavedReport where
  id : String
  suiteName : String
  createdAt : String
  total : Nat
  passed : Nat
  failed : Nat
  byCategory : CategorySummary
  results : List TestResult
  source : PlanInput
deriving DecidableEq, Repr

/-- The value space produced by JSON.parse. -/
inductive Json where
  | null
  | bool (b : Bool)
  | num (n : Int)
  | str (s : String)
  | arr (elems : List Json)
  | obj (fields : List (String × Json))

/-- Property read on a JavaScript object (`test.action`): the value of
the named field, or none when the field is absent. -/
def Json.getField : List (String × Json) → String → Option Json
  | [], _ => none
  | (k, v) :: rest, key => if k = key then some v else Json.getField rest key

/-- Ordered-association-list read, modelling JavaScript property access
`m[key]` on a plain object used as a map. -/
def objGet {α : Type} : List (String × α) → String → Option α
  | [], _ => none
  | (k, v) :: rest, key => if k = key then some v else objGet rest key

/-- Ordered-association-list write, modelling JavaScript property
assignment `m[key] = val`: an existing key keeps its position and gets
the new value, a new key is appended at the end. -/
def objUpd {α : Type} : List (String × α) → String → α → List (String × α)
  | [], key, val => [(key, val)]
  | (k, v) :: rest, key, val =>
      if k = key then (key, val) :: rest else (k, v) :: objUpd rest key val

/-- Error message for syntactically invalid JSON. -/
def msgInvalidJson : String := "Invalid JSON. Check commas, quotes, and brackets."

/-- Error message for a non-object root value. -/
def msgRootObject : String := "The root value must be an object of categories."

/-- Error message for a category whose trimmed name is empty. -/
def msgEmptyCategory : String := "Category names cannot be empty."

/-- Error message for a category whose value is not an array. -/
def msgCategoryArray (category : String) : String :=
  "Category \"" ++ category ++ "\" must contain an array."

/-- Error message for a test item that is not an object. -/
def msgItemObject (category : String) (index : Nat) : String :=
  "\"" ++ category ++ "\" test #" ++ Nat.repr (index + 1) ++ " must be an object."

/-- Error message for a test item with a missing/empty action or result. -/
def msgItemFields (category : String) (index : Nat) : String :=
  "\"" ++ category ++ "\" test #" ++ Nat.repr (index + 1) ++
    " needs non-empty action/result."

/-- Error message for a plan with zero test cases. -/
def msgNoTests : String := "No tests were found in the plan."

/-- The id assigned to a flattened test: category, positional index
within its category, and global sequence, joined by dashes
(the template literal in the source). -/
def mkTestId (category : String) (index : Nat) (sequence : Nat) : String :=
  category ++ "-" ++ Nat.repr index ++ "-" ++ Nat.repr sequence

/-- JavaScript `String.prototype.trim`, embedded as a structurally
computable function on the character list: strip whitespace from both
ends of the string. -/
def trimStr (s : String) : String :=
  String.mk
    (((s.data.dropWhile Char.isWhitespace).reverse.dropWhile
        Char.isWhitespace).reverse)

/-- `typeof v === "string" ? v.trim() : ""` on an optional field value. -/
def strOrEmptyTrim : Option Json → String
  | some (Json.str s) => trimStr s
  | _ => ""

/-- Validation of one test item inside a category (the body of the
`rawTests.forEach` callback in `parsePlan`). -/
def parseItem (category : String) (index : Nat) : Json → Except String PlanGroup
  | Json.obj fields =>
      let action := strOrEmptyTrim (Json.getField fields "action")
      let result := strOrEmptyTrim (Json.getField fields "result")
      if action = "" ∨ result = "" then
        Except.error (msgItemFields category index)
      else
        Except.ok { action := action, result := result }
  | _ => Except.error (msgItemObject category index)

/-- The `rawTests.forEach` loop of `parsePlan`: validates each item of a
category, producing the category's group list, its flattened tests and
the advanced global sequence counter. -/
def parseTests (category : String) :
    List Json → Nat → Nat → Except String (List PlanGroup × List FlatTest × Nat)
  | [], _, seq => Except.ok ([], [], seq)
  | t :: rest, index, seq =>
      match parseItem category index t with
      | Except.error e => Except.error e
      | Except.ok g =>
          match parseTests category rest (index + 1) (seq + 1) with
          | Except.error e => Except.error e
          | Except.ok (gs, fs, seq') =>
              Except.ok
                (g :: gs,
                 { id := mkTestId category index seq
                   category := category
                   action := g.action
                   expected := g.result
                   sequence := seq } :: fs,
                 seq')

/-- The `Object.entries(parsed)` loop of `parsePlan`: trims and checks
each category name, requires an array value, validates the items and
accumulates `source` (via property assignment) and `flattened`. -/
def parseEntries :
    List (String × Json) → PlanInput → List FlatTest → Nat →
      Except String (PlanInput × List FlatTest × Nat)
  | [], source, flattened, seq => Except.ok (source, flattened, seq)
  | (rawCategory, rawTests) :: rest, source, flattened, seq =>
      let category := trimStr rawCategory
      if category = "" then Except.error msgEmptyCategory
      else
        match rawTests with
        | Json.arr ts =>
            match parseTests category ts 0 seq with
            | Except.error e => Except.error e
            | Except.ok (gs, fs, seq') =>
                parseEntries rest (objUpd source category gs) (flattened ++ fs) seq'
        | _ => Except.error (msgCategoryArray category)

/-- `parsePlan`, over the outcome of JSON.parse: `none` models a raw
text on which JSON.parse throws, `some parsed` a successful parse. -/
def parsePlan (raw : Option Json) : Except String (PlanInput × List FlatTest) :=
  match raw with
  | none => Except.error msgInvalidJson
  | some (Json.obj entries) =>
      match parseEntries entries [] [] 1 with
      | Except.error e => Except.error e
      | Except.ok (source, flattened, _) =>
          if flattened.length = 0 then Except.error msgNoTests
          else Except.ok (source, flattened)
  | some _ => Except.error msgRootObject

/-- One step of `getCategorySummary`'s `results.forEach` callback:
ensure the category key exists (a fresh key is appended), then bump its
total and its passed or failed count. -/
def applyResult (summary : CategorySummary) (r : TestResult) : CategorySummary :=
  let base :=
    match objGet summary r.category with
    | some _ => summary
    | none => objUpd summary r.category { passed := 0, failed := 0, total := 0 }
  let cur := (objGet base r.category).getD { passed := 0, failed := 0, total := 0 }
  let cur := { cur with total := cur.total + 1 }
  let cur :=
    if r.verdict = Verdict.pass then { cur with passed := cur.passed + 1 }
    else { cur with failed := cur.failed + 1 }
  objUpd base r.category cur

/-- `getCategorySummary`: a single pass over the results, grouping by
literal category string. -/
def getCategorySummary (results : List TestResult) : CategorySummary :=
  results.foldl applyResult []

/-- `buildReport`.  The freshly generated report id (`toSafeId()`) and
the wall-clock timestamp (`new Date().toISOString()`) are external
inputs of the embedding. -/
def buildReport (newId : String) (now : String) (suiteName : String)
    (source : PlanInput) (results : List TestResult) : SavedReport :=
  let passed := (results.filter (fun r => decide (r.verdict = Verdict.pass))).length
  let failed := results.length - passed
  { id := newId
    suiteName := suiteName
    createdAt := now
    total := results.length
    passed := passed
    failed := failed
    byCategory := getCategorySummary results
    results := results
    source := source }

/-- The UI step of the component. -/
inductive Step where
  | start
  | input
  | run
  | report
deriving DecidableEq, Repr

/-- The component state relevant to the run engine and the history.
`swipeTimeout` mirrors `swipeTimeoutRef`: the verdict whose delayed
commit is scheduled, if any.  Transient install-prompt state and the
raw JSON draft are outside the embedded core. -/
structure RunState where
  step : Step
  suiteName : String
  sourcePlan : Option PlanInput
  tests : List FlatTest
  cursor : Nat
  results : List (Option TestResult)
  commentDrafts : List (String × String)
  dragOffset : Int
  isDragging : Bool
  exitVerdict : Option Verdict
  swipeTimeout : Option Verdict
  history : List SavedReport
  activeReportId : Option String
deriving DecidableEq, Repr

/-- External generator inputs of a report: the fresh id produced by
`toSafeId()` and the construction timestamp. -/
structure Gen where
  newId : String
  now : String
deriving DecidableEq, Repr

/-- `MAX_HISTORY_ITEMS`. -/
def maxHistoryItems : Nat := 50

/-- The suite name used for the report: trimmed, falling back to the
literal when empty (`suiteName.trim() || "Untitled Plan"`). -/
def reportSuiteName (suiteName : String) : String :=
  if trimStr suiteName = "" then "Untitled Plan" else trimStr suiteName

/-- The history update performed in `finishRun`: prepend the new report
and truncate to `MAX_HISTORY_ITEMS`. -/
def appendHistory (report : SavedReport) (history : List SavedReport) :
    List SavedReport :=
  (report :: history).take maxHistoryItems

/-- `finishRun`: keep only the non-null results, build the report, push
it onto the (capped) history, select it and move to the report step.
Does nothing when no source plan is loaded. -/
def finishRun (gen : Gen) (nextResults : List (Option TestResult))
    (st : RunState) : RunState :=
  match st.sourcePlan with
  | none => st
  | some sourcePlan =>
      let finishedResults := nextResults.filterMap (fun x => x)
      let report :=
        buildReport gen.newId gen.now (reportSuiteName st.suiteName)
          sourcePlan finishedResults
      { st with
          history := appendHistory report st.history
          activeReportId := some report.id
          step := Step.report }

/-- The TestResult committed for `target`: the test plus the verdict and
the trimmed draft comment (`(commentDrafts[target.id] ?? "").trim()`). -/
def commitEntry (st : RunState) (target : FlatTest) (verdict : Verdict) :
    TestResult :=
  { toFlatTest := target
    verdict := verdict
    comment := trimStr ((objGet st.commentDrafts target.id).getD "") }

/-- `commitVerdict`: in the run step with a test at the cursor, store the
committed result at the cursor slot; finish the run when the advanced
cursor reaches the end of the tests, otherwise advance the cursor. -/
def commitVerdict (gen : Gen) (verdict : Verdict) (st : RunState) : RunState :=
  if st.step ≠ Step.run then st
  else
    match st.tests.get? st.cursor with
    | none => st
    | some target =>
        let entry := commitEntry st target verdict
        let nextResults := st.results.set st.cursor (some entry)
        let st' := { st with results := nextResults, isDragging := false }
        let nextCursor := st.cursor + 1
        if st.tests.length ≤ nextCursor then finishRun gen nextResults st'
        else { st' with cursor := nextCursor }

/-- `recordVerdict`: rejected while an exit animation (pending commit)
is in flight; otherwise clears any stale timeout, sets the exit visual
state and schedules the delayed commit.  `offscreenDistance` is the
externally computed `Math.round(window.innerWidth * 1.2)`. -/
def recordVerdict (offscreenDistance : Int) (verdict : Verdict)
    (st : RunState) : RunState :=
  if st.step ≠ Step.run ∨ st.exitVerdict ≠ none then st
  else
    match st.tests.get? st.cursor with
    | none => st
    | some _ =>
        let signedDistance :=
          if verdict = Verdict.pass then offscreenDistance else -offscreenDistance
        { st with
            isDragging := false
            exitVerdict := some verdict
            dragOffset := signedDistance
            swipeTimeout := some verdict }

/-- The firing of the timeout scheduled by `recordVerdict`: apply the
delayed commit, then clear the exit visual state and the timeout. -/
def fireSwipeTimeout (gen : Gen) (st : RunState) : RunState :=
  match st.swipeTimeout with
  | none => st
  | some verdict =>
      let st' := commitVerdict gen verdict st
      { st' with exitVerdict := none, dragOffset := 0, swipeTimeout := none }

/-- `undoLast`: rejected outside the run step, at cursor zero, or while
a commit is in flight; otherwise clears the previous slot and steps the
cursor back. -/
def undoLast (st : RunState) : RunState :=
  if st.step ≠ Step.run ∨ st.cursor = 0 ∨ st.exitVerdict ≠ none then st
  else
    let previousIndex := st.cursor - 1
    let nextResults := st.results.set previousIndex none
    { st with
        results := nextResults
        cursor := previousIndex
        dragOffset := 0
        isDragging := false }

/-- `updateComment`: object-spread update of the draft map. -/
def updateComment (testId : String) (value : String) (st : RunState) : RunState :=
  { st with commentDrafts := objUpd st.commentDrafts testId value }

/-- `deleteReport`: drop the report with the given id; when it was the
active selection, fall back to the new front entry (or none). -/
def deleteReport (reportId : String) (st : RunState) : RunState :=
  let nextHistory := st.history.filter (fun item => decide ¬(item.id = reportId))
  let st' := { st with history := nextHistory }
  if st.activeReportId = some reportId then
    { st' with activeReportId := nextHistory.head?.map SavedReport.id }
  else st'

/-- `clearHistory`. -/
def clearHistory (st : RunState) : RunState :=
  { st with history := [], activeReportId := none }

/-- The history-load effect: a stored array replaces the in-memory
history verbatim and selects its front entry. -/
def loadHistory (stored : List SavedReport) (st : RunState) : RunState :=
  { st with history := stored, activeReportId := (stored.head?).map SavedReport.id }

/-- `submitPlan`: on a successful parse, initialize a fresh run at
cursor zero with all result slots empty; on a parse failure the run
state is untouched (only the error message shown changes). -/
def submitPlan (raw : Option Json) (st : RunState) : RunState :=
  match parsePlan raw with
  | Except.error _ => { st with swipeTimeout := none }
  | Except.ok (source, flattened) =>
      { st with
          sourcePlan := some source
          tests := flattened
          results := List.replicate flattened.length none
          cursor := 0
          commentDrafts := []
          dragOffset := 0
          isDragging := false
          exitVerdict := none
          swipeTimeout := none
          step := Step.run }

/-- The trimmed PlanGroup a test item yields when it is valid: the
item-level validation of `parsePlan`, independent of the category name
and index (which only enter the error messages). -/
def jsonToGroup : Json → Option PlanGroup
  | Json.obj fields =>
      let action := strOrEmptyTrim (Json.getField fields "action")
      let result := strOrEmptyTrim (Json.getField fields "result")
      if action = "" ∨ result = "" then none
      else some { action := action, result := result }
  | _ => none

/-- The groups of a category's item list, when every item is valid. -/
def groupsOf : List Json → Option (List PlanGroup)
  | [] => some []
  | t :: ts =>
      match jsonToGroup t, groupsOf ts with
      | some g, some gs => some (g :: gs)
      | _, _ => none

/-- The trimmed category name and groups of one root entry, when the
entry is valid. -/
def entryBlock : String × Json → Option (String × List PlanGroup)
  | (rawCategory, rawTests) =>
      let category := trimStr rawCategory
      if category = "" then none
      else
        match rawTests with
        | Json.arr ts => (groupsOf ts).map (fun gs => (category, gs))
        | _ => none

/-- The blocks of all root entries, when every entry is valid. -/
def blocksOf : List (String × Json) → Option (List (String × List PlanGroup))
  | [] => some []
  | e :: es =>
      match entryBlock e, blocksOf es with
      | some b, some bs => some (b :: bs)
      | _, _ => none

/-- The flattened tests of one category's groups, starting at the given
in-category index and global sequence. -/
def flatsFrom (category : String) : Nat → Nat → List PlanGroup → List FlatTest
  | _, _, [] => []
  | index, seq, g :: gs =>
      { id := mkTestId category index seq
        category := category
        action := g.action
        expected := g.result
        sequence := seq } :: flatsFrom category (index + 1) (seq + 1) gs

/-- The flattened tests of a block list, starting at the given global
sequence. -/
def flatOfBlocks : Nat → List (String × List PlanGroup) → List FlatTest
  | _, [] => []
  | seq, (c, gs) :: bs => flatsFrom c 0 seq gs ++ flatOfBlocks (seq + gs.length) bs

/-- The source mapping accumulated by repeated property assignment over
a block list. -/
def sourceOfBlocks (init : PlanInput) (bs : List (String × List PlanGroup)) :
    PlanInput :=
  bs.foldl (fun m b => objUpd m b.1 b.2) init

/-- One step of re-grouping a flattened test back under its category
key (ignoring id and sequence), with JavaScript-object key semantics. -/
def regroupStep (m : PlanInput) (t : FlatTest) : PlanInput :=
  match objGet m t.category with
  | some gs => objUpd m t.category (gs ++ [{ action := t.action, result := t.expected }])
  | none => m ++ [(t.category, [{ action := t.action, result := t.expected }])]

/-- Re-grouping a flattened list by category, as in the round-trip
property of the specification. -/
def regroup (flat : List FlatTest) : PlanInput :=
  flat.foldl regroupStep []

/-- The reversed maximal run of non-dash characters at the end of a
string: used to read the trailing sequence component off a test id. -/
def revTailTok (s : String) : List Char :=
  s.data.reverse.takeWhile (fun c => decide ¬(c = '-'))

/-- The numeric value of a list of decimal digit characters. -/
def decVal (l : List Char) : Nat :=
  l.foldl (fun a c => 10 * a + (c.toNat - 48)) 0

theorem digitChar_toNat : ∀ k, k < 10 → (Nat.digitChar k).toNat = 48 + k := by
  decide

theorem digitChar_ne_dash : ∀ k, k < 10 → ¬(Nat.digitChar k = '-') := by
  decide

theorem mem_toDigitsCore (f : Nat) :
    ∀ (n : Nat) (acc : List Char) (c : Char),
      c ∈ Nat.toDigitsCore 10 f n acc →
        c ∈ acc ∨ ∃ k, k < 10 ∧ c = Nat.digitChar k := by
  induction f with
  | zero =>
      intro n acc c h
      exact Or.inl h
  | succ f ih =>
      intro n acc c h
      by_cases h10 : n / 10 = 0
      · simp only [Nat.toDigitsCore, h10, if_true] at h
        rcases List.mem_cons.mp h with h | h
        · exact Or.inr ⟨n % 10, Nat.mod_lt _ (by norm_num), h⟩
        · exact Or.inl h
      · simp only [Nat.toDigitsCore, h10, if_false] at h
        rcases ih (n / 10) (Nat.digitChar (n % 10) :: acc) c h with h | h
        · rcases List.mem_cons.mp h with h | h
          · exact Or.inr ⟨n % 10, Nat.mod_lt _ (by norm_num), h⟩
          · exact Or.inl h
        · exact Or.inr h

theorem toDigitsCore_append (f : Nat) :
    ∀ (n : Nat) (ds : List Char), n < f →
      Nat.toDigitsCore 10 f n ds = Nat.toDigitsCore 10 f n [] ++ ds := by
  induction f with
  | zero =>
      intro n ds h
      exact absurd h (Nat.not_lt_zero n)
  | succ f ih =>
      intro n ds h
      by_cases h10 : n / 10 = 0
      · simp [Nat.toDigitsCore, h10]
      · have hpos : 0 < n := by
          rcases Nat.eq_zero_or_pos n with h0 | h0
          · exact absurd (by simp [h0]) h10
          · exact h0
        have hn : n / 10 < f := by
          have hd := Nat.div_lt_self hpos (by norm_num : 1 < 10)
          omega
        simp only [Nat.toDigitsCore, h10, if_false]
        rw [ih (n / 10) (Nat.digitChar (n % 10) :: ds) hn,
          ih (n / 10) [Nat.digitChar (n % 10)] hn]
        simp

theorem decVal_append_single (xs : List Char) (d : Char) :
    decVal (xs ++ [d]) = 10 * decVal xs + (d.toNat - 48) := by
  simp [decVal, List.foldl_append]

theorem decVal_toDigitsCore (f : Nat) :
    ∀ n, n < f → decVal (Nat.toDigitsCore 10 f n []) = n := by
  induction f with
  | zero =>
      intro n h
      exact absurd h (Nat.not_lt_zero n)
  | succ f ih =>
      intro n h
      by_cases h10 : n / 10 = 0
      · have hn : n < 10 := by
          rcases Nat.lt_or_ge n 10 with h' | h'
          · exact h'
          · exact absurd h10 (by
              have : 0 < n / 10 := Nat.div_pos h' (by norm_num)
              omega)
        have hmod : n % 10 = n := Nat.mod_eq_of_lt hn
        simp only [Nat.toDigitsCore, h10, if_true, hmod]
        simp [decVal, digitChar_toNat n hn]
      · have hpos : 0 < n := by
          rcases Nat.eq_zero_or_pos n with h0 | h0
          · exact absurd (by simp [h0]) h10
          · exact h0
        have hn : n / 10 < f := by
          have hd := Nat.div_lt_self hpos (by norm_num : 1 < 10)
          omega
        have hstep : Nat.toDigitsCore 10 (f + 1) n [] =
            Nat.toDigitsCore 10 f (n / 10) [] ++ [Nat.digitChar (n % 10)] := by
          simp only [Nat.toDigitsCore, h10, if_false]
          exact toDigitsCore_append f (n / 10) [Nat.digitChar (n % 10)] hn
        rw [hstep, decVal_append_single, ih (n / 10) hn,
          digitChar_toNat (n % 10) (Nat.mod_lt _ (by norm_num))]
        omega

theorem natRepr_data (n : Nat) :
    (Nat.repr n).data = Nat.toDigitsCore 10 (n + 1) n [] := rfl

theorem natRepr_inj {m n : Nat} (h : Nat.repr m = Nat.repr n) : m = n := by
  have hd : Nat.toDigitsCore 10 (m + 1) m [] = Nat.toDigitsCore 10 (n + 1) n [] := by
    have := congrArg String.data h
    rwa [natRepr_data, natRepr_data] at this
  have h1 := decVal_toDigitsCore (m + 1) m (Nat.lt_succ_self m)
  have h2 := decVal_toDigitsCore (n + 1) n (Nat.lt_succ_self n)
  rw [hd] at h1
  omega

theorem natRepr_ne_dash (n : Nat) : ∀ c ∈ (Nat.repr n).data, ¬(c = '-') := by
  intro c hc
  rw [natRepr_data] at hc
  rcases mem_toDigitsCore (n + 1) n [] c hc with h | ⟨k, hk, rfl⟩
  · simp at h
  · exact digitChar_ne_dash k hk

theorem revTailTok_mkTestId (c : String) (k s : Nat) :
    revTailTok (mkTestId c k s) = (Nat.repr s).data.reverse := by
  have hdash : ("-" : String).data = ['-'] := rfl
  unfold revTailTok mkTestId
  simp only [String.data_append, hdash, List.reverse_append, List.append_assoc,
    List.reverse_cons, List.reverse_nil, List.nil_append, List.cons_append]
  rw [List.takeWhile_append_of_pos]
  · have hstop :
        List.takeWhile (fun ch => decide ¬(ch = '-'))
          ('-' :: ((Nat.repr k).data.reverse ++ '-' :: c.data.reverse)) = [] := by
      simp [List.takeWhile]
    rw [hstop, List.append_nil]
  · intro a ha
    have := natRepr_ne_dash s a (List.mem_reverse.mp ha)
    simpa using this

theorem mkTestId_seq_eq {c1 c2 : String} {k1 k2 s1 s2 : Nat}
    (h : mkTestId c1 k1 s1 = mkTestId c2 k2 s2) : s1 = s2 := by
  have h2 := congrArg revTailTok h
  rw [revTailTok_mkTestId, revTailTok_mkTestId] at h2
  have h3 : (Nat.repr s1).data = (Nat.repr s2).data := by
    have h4 := congrArg List.reverse h2
    simpa using h4
  exact natRepr_inj (String.ext h3)

theorem parseItem_ok (category : String) (index : Nat) (t : Json) (g : PlanGroup) :
    parseItem category index t = Except.ok g ↔ jsonToGroup t = some g := by
  cases t <;> simp only [parseItem, jsonToGroup] <;> try simp
  split <;> rename_i hc <;> simp [hc] <;> tauto

theorem groupsOf_length :
    ∀ (ts : List Json) (gs : List PlanGroup), groupsOf ts = some gs →
      gs.length = ts.length := by
  intro ts
  induction ts with
  | nil => intro gs h; simp only [groupsOf] at h; simp [← Option.some_inj.mp h]
  | cons t rest ih =>
      intro gs h
      simp only [groupsOf] at h
      cases hg : jsonToGroup t with
      | none => rw [hg] at h; exact absurd h (by simp)
      | some g =>
          cases hr : groupsOf rest with
          | none => rw [hg, hr] at h; exact absurd h (by simp)
          | some gs0 =>
              rw [hg, hr] at h
              have := Option.some_inj.mp h
              subst this
              simp [ih gs0 hr]

theorem flatsFrom_length (c : String) :
    ∀ (gs : List PlanGroup) (idx seq : Nat),
      (flatsFrom c idx seq gs).length = gs.length := by
  intro gs
  induction gs with
  | nil => intro idx seq; rfl
  | cons g rest ih => intro idx seq; simp [flatsFrom, ih]

theorem flatsFrom_getElem? (c : String) :
    ∀ (gs : List PlanGroup) (idx seq i : Nat) (t : FlatTest),
      (flatsFrom c idx seq gs)[i]? = some t →
        t.sequence = seq + i ∧ t.id = mkTestId c (idx + i) (seq + i) ∧
          t.category = c := by
  intro gs
  induction gs with
  | nil => intro idx seq i t h; simp [flatsFrom] at h
  | cons g rest ih =>
      intro idx seq i t h
      cases i with
      | zero =>
          simp only [flatsFrom, List.getElem?_cons_zero] at h
          have := Option.some_inj.mp h
          subst this
          simp
      | succ j =>
          simp only [flatsFrom, List.getElem?_cons_succ] at h
          rcases ih (idx + 1) (seq + 1) j t h with ⟨h1, h2, h3⟩
          refine ⟨by omega, ?_, h3⟩
          rw [h2]
          have e1 : idx + 1 + j = idx + (j + 1) := by omega
          have e2 : seq + 1 + j = seq + (j + 1) := by omega
          rw [e1, e2]

theorem flatOfBlocks_length :
    ∀ (bs : List (String × List PlanGroup)) (seq : Nat),
      (flatOfBlocks seq bs).length = (bs.map (fun b => b.2.length)).sum := by
  intro bs
  induction bs with
  | nil => intro seq; rfl
  | cons b rest ih =>
      intro seq
      cases b with
      | mk c gs => simp [flatOfBlocks, flatsFrom_length, ih]

theorem flatOfBlocks_getElem? :
    ∀ (bs : List (String × List PlanGroup)) (seq i : Nat) (t : FlatTest),
      (flatOfBlocks seq bs)[i]? = some t →
        t.sequence = seq + i ∧ ∃ c k, t.id = mkTestId c k (seq + i) := by
  intro bs
  induction bs with
  | nil => intro seq i t h; simp [flatOfBlocks] at h
  | cons b rest ih =>
      intro seq i t h
      cases b with
      | mk c gs =>
          simp only [flatOfBlocks] at h
          by_cases hlt : i < gs.length
          · rw [List.getElem?_append_left (by rw [flatsFrom_length]; exact hlt)] at h
            rcases flatsFrom_getElem? c gs 0 seq i t h with ⟨h1, h2, _⟩
            exact ⟨h1, ⟨c, 0 + i, h2⟩⟩
          · rw [List.getElem?_append_right
              (by rw [flatsFrom_length]; omega)] at h
            rw [flatsFrom_length] at h
            rcases ih (seq + gs.length) (i - gs.length) t h with ⟨h1, c', k', h2⟩
            have e : seq + gs.length + (i - gs.length) = seq + i := by omega
            rw [e] at h1 h2
            exact ⟨h1, ⟨c', k', h2⟩⟩

theorem parseTests_ok (category : String) :
    ∀ (ts : List Json) (index seq : Nat) (gs : List PlanGroup)
      (fs : List FlatTest) (seq' : Nat),
      parseTests category ts index seq = Except.ok (gs, fs, seq') →
        groupsOf ts = some gs ∧ fs = flatsFrom category index seq gs ∧
          seq' = seq + ts.length := by
  intro ts
  induction ts with
  | nil =>
      intro index seq gs fs seq' h
      simp only [parseTests, Except.ok.injEq, Prod.mk.injEq] at h
      rcases h with ⟨h1, h2, h3⟩
      subst h1
      subst h2
      subst h3
      exact ⟨rfl, rfl, rfl⟩
  | cons t rest ih =>
      intro index seq gs fs seq' h
      simp only [parseTests] at h
      cases hpi : parseItem category index t with
      | error e => rw [hpi] at h; exact absurd h (by simp)
      | ok g =>
          rw [hpi] at h
          cases hrec : parseTests category rest (index + 1) (seq + 1) with
          | error e => rw [hrec] at h; exact absurd h (by simp)
          | ok out =>
              rcases out with ⟨gs0, fs0, seq0⟩
              rw [hrec] at h
              simp only [Except.ok.injEq, Prod.mk.injEq] at h
              rcases h with ⟨h1, h2, h3⟩
              rcases ih (index + 1) (seq + 1) gs0 fs0 seq0 hrec with ⟨ih1, ih2, ih3⟩
              refine ⟨?_, ?_, by simp [← h3, ih3]; omega⟩
              · simp only [groupsOf, (parseItem_ok category index t g).mp hpi, ih1]
                rw [← h1]
              · rw [← h1, ← h2]
                simp [flatsFrom, ih2]

theorem parseEntries_ok :
    ∀ (entries : List (String × Json)) (source : PlanInput)
      (flattened : List FlatTest) (seq : Nat) (src' : PlanInput)
      (flat' : List FlatTest) (seq' : Nat),
      parseEntries entries source flattened seq = Except.ok (src', flat', seq') →
        ∃ bs, blocksOf entries = some bs ∧
          src' = sourceOfBlocks source bs ∧
          flat' = flattened ++ flatOfBlocks seq bs ∧
          seq' = seq + (bs.map (fun b => b.2.length)).sum := by
  intro entries
  induction entries with
  | nil =>
      intro source flattened seq src' flat' seq' h
      simp only [parseEntries, Except.ok.injEq, Prod.mk.injEq] at h
      rcases h with ⟨h1, h2, h3⟩
      subst h1
      subst h2
      subst h3
      exact ⟨[], rfl, rfl, by simp [flatOfBlocks], by simp⟩
  | cons e rest ih =>
      intro source flattened seq src' flat' seq' h
      rcases e with ⟨rawCategory, rawTests⟩
      simp only [parseEntries] at h
      by_cases hcat : trimStr rawCategory = ""
      · rw [if_pos hcat] at h
        exact absurd h (by simp)
      · rw [if_neg hcat] at h
        cases rawTests with
        | arr ts =>
            dsimp only at h
            cases hpt : parseTests (trimStr rawCategory) ts 0 seq with
            | error e => rw [hpt] at h; exact absurd h (by simp)
            | ok out =>
                rcases out with ⟨gs, fs, seq0⟩
                rw [hpt] at h
                rcases parseTests_ok (trimStr rawCategory) ts 0 seq gs fs seq0 hpt
                  with ⟨hg, hf, hs⟩
                rcases ih (objUpd source (trimStr rawCategory) gs) (flattened ++ fs)
                  seq0 src' flat' seq' h with ⟨bs0, hb0, hsrc, hflat, hseq⟩
                refine ⟨(trimStr rawCategory, gs) :: bs0, ?_, ?_, ?_, ?_⟩
                · simp [blocksOf, entryBlock, if_neg hcat, hg, hb0]
                · simpa [sourceOfBlocks] using hsrc
                · have hlen : gs.length = ts.length := groupsOf_length ts gs hg
                  rw [hflat, hf]
                  simp only [flatOfBlocks, List.append_assoc]
                  rw [hs, ← hlen]
                · have hlen : gs.length = ts.length := groupsOf_length ts gs hg
                  rw [hseq, hs]
                  simp only [List.map_cons, List.sum_cons]
                  omega
        | null => exact absurd h (by simp)
        | bool b => exact absurd h (by simp)
        | num n => exact absurd h (by simp)
        | str s => exact absurd h (by simp)
        | obj fields => exact absurd h (by simp)

theorem objGet_eq_none {α : Type} :
    ∀ (m : List (String × α)) (k : String),
      objGet m k = none ↔ k ∉ m.map Prod.fst := by
  intro m k
  induction m with
  | nil => simp [objGet]
  | cons p rest ih =>
      rcases p with ⟨k', v⟩
      by_cases hk : k' = k
      · subst hk
        simp [objGet]
      · simp only [objGet, if_neg hk, List.map_cons, List.mem_cons]
        rw [ih]
        constructor
        · intro h h'
          rcases h' with h' | h'
          · exact hk h'.symm
          · exact h h'
        · intro h h'
          exact h (Or.inr h')

theorem objUpd_fresh {α : Type} :
    ∀ (m : List (String × α)) (k : String) (v : α),
      k ∉ m.map Prod.fst → objUpd m k v = m ++ [(k, v)] := by
  intro m k v h
  induction m with
  | nil => rfl
  | cons p rest ih =>
      rcases p with ⟨k', v'⟩
      simp only [List.map_cons, List.mem_cons] at h
      have hk : ¬(k' = k) := fun he => h (Or.inl he.symm)
      simp only [objUpd, if_neg hk, List.cons_append, List.cons.injEq, true_and]
      exact ih (fun he => h (Or.inr he))

theorem sourceOfBlocks_fresh :
    ∀ (bs : List (String × List PlanGroup)) (init : PlanInput),
      (bs.map Prod.fst).Nodup →
      (∀ k ∈ bs.map Prod.fst, k ∉ init.map Prod.fst) →
      sourceOfBlocks init bs = init ++ bs := by
  intro bs
  induction bs with
  | nil => intro init _ _; simp [sourceOfBlocks]
  | cons b rest ih =>
      intro init hnd hdisj
      rcases b with ⟨c, gs⟩
      simp only [List.map_cons, List.nodup_cons] at hnd
      have hc : c ∉ init.map Prod.fst := hdisj c (by simp)
      have hstep : objUpd init c gs = init ++ [(c, gs)] := objUpd_fresh init c gs hc
      simp only [sourceOfBlocks, List.foldl_cons] at *
      rw [hstep, ih (init ++ [(c, gs)]) hnd.2 ?_]
      · simp
      · intro k hk
        simp only [List.map_append, List.mem_append]
        intro hmem
        rcases hmem with hmem | hmem
        · exact hdisj k (by simp [hk]) hmem
        · simp only [List.map_cons, List.map_nil, List.mem_singleton] at hmem
          exact hnd.1 (hmem ▸ hk)

theorem blocksOf_keys :
    ∀ (entries : List (String × Json)) (bs : List (String × List PlanGroup)),
      blocksOf entries = some bs →
        bs.map Prod.fst = entries.map (fun e => trimStr e.1) := by
  intro entries
  induction entries with
  | nil =>
      intro bs h
      simp only [blocksOf] at h
      have := Option.some_inj.mp h
      subst this
      rfl
  | cons e rest ih =>
      intro bs h
      simp only [blocksOf] at h
      cases hb : entryBlock e with
      | none => rw [hb] at h; exact absurd h (by simp)
      | some b =>
          cases hr : blocksOf rest with
          | none => rw [hb, hr] at h; exact absurd h (by simp)
          | some bs0 =>
              rw [hb, hr] at h
              have := Option.some_inj.mp h
              subst this
              have hkey : b.1 = trimStr e.1 := by
                rcases e with ⟨rawCategory, rawTests⟩
                simp only [entryBlock] at hb
                by_cases hcat : trimStr rawCategory = ""
                · rw [if_pos hcat] at hb
                  exact absurd hb (by simp)
                · rw [if_neg hcat] at hb
                  cases rawTests with
                  | arr ts =>
                      dsimp only at hb
                      cases hg : groupsOf ts with
                      | none => rw [hg] at hb; exact absurd hb (by simp)
                      | some gs =>
                          rw [hg] at hb
                          have := Option.some_inj.mp hb
                          subst this
                          rfl
                  | null => exact absurd hb (by simp)
                  | bool b' => exact absurd hb (by simp)
                  | num n => exact absurd hb (by simp)
                  | str s => exact absurd hb (by simp)
                  | obj fields => exact absurd hb (by simp)
              simp [hkey, ih bs0 hr]

/-- The enumerated validation failure messages of the plan parser. -/
def validationMsg (m : String) : Prop :=
  m = msgInvalidJson ∨ m = msgRootObject ∨ m = msgEmptyCategory ∨
    (∃ c, m = msgCategoryArray c) ∨ (∃ c i, m = msgItemObject c i) ∨
    (∃ c i, m = msgItemFields c i) ∨ m = msgNoTests

theorem parseItem_error (category : String) (index : Nat) (t : Json) :
    ∀ m, parseItem category index t = Except.error m → validationMsg m := by
  intro m h
  cases t with
  | obj fields =>
      simp only [parseItem] at h
      split at h
      · have := Except.error.inj h
        exact Or.inr (Or.inr (Or.inr (Or.inr (Or.inr (Or.inl
          ⟨category, index, this.symm⟩)))))
      · exact absurd h (by simp)
  | null =>
      exact Or.inr (Or.inr (Or.inr (Or.inr (Or.inl
        ⟨category, index, (Except.error.inj h).symm⟩))))
  | bool b =>
      exact Or.inr (Or.inr (Or.inr (Or.inr (Or.inl
        ⟨category, index, (Except.error.inj h).symm⟩))))
  | num n =>
      exact Or.inr (Or.inr (Or.inr (Or.inr (Or.inl
        ⟨category, index, (Except.error.inj h).symm⟩))))
  | str s =>
      exact Or.inr (Or.inr (Or.inr (Or.inr (Or.inl
        ⟨category, index, (Except.error.inj h).symm⟩))))
  | arr elems =>
      exact Or.inr (Or.inr (Or.inr (Or.inr (Or.inl
        ⟨category, index, (Except.error.inj h).symm⟩))))

theorem parseTests_error (category : String) :
    ∀ (ts : List Json) (index seq : Nat) (m : String),
      parseTests category ts index seq = Except.error m → validationMsg m := by
  intro ts
  induction ts with
  | nil => intro index seq m h; exact absurd h (by simp [parseTests])
  | cons t rest ih =>
      intro index seq m h
      simp only [parseTests] at h
      cases hpi : parseItem category index t with
      | error e =>
          rw [hpi] at h
          have := Except.error.inj h
          exact this ▸ parseItem_error category index t e hpi
      | ok g =>
          rw [hpi] at h
          cases hrec : parseTests category rest (index + 1) (seq + 1) with
          | error e =>
              rw [hrec] at h
              have := Except.error.inj h
              exact this ▸ ih (index + 1) (seq + 1) e hrec
          | ok out =>
              rcases out with ⟨gs, fs, seq0⟩
              rw [hrec] at h
              exact absurd h (by simp)

theorem parseEntries_error :
    ∀ (entries : List (String × Json)) (source : PlanInput)
      (flattened : List FlatTest) (seq : Nat) (m : String),
      parseEntries entries source flattened seq = Except.error m →
        validationMsg m := by
  intro entries
  induction entries with
  | nil => intro source flattened seq m h; exact absurd h (by simp [parseEntries])
  | cons e rest ih =>
      intro source flattened seq m h
      rcases e with ⟨rawCategory, rawTests⟩
      simp only [parseEntries] at h
      by_cases hcat : trimStr rawCategory = ""
      · rw [if_pos hcat] at h
        have := Except.error.inj h
        exact Or.inr (Or.inr (Or.inl this.symm))
      · rw [if_neg hcat] at h
        cases rawTests with
        | arr ts =>
            dsimp only at h
            cases hpt : parseTests (trimStr rawCategory) ts 0 seq with
            | error e' =>
                rw [hpt] at h
                have := Except.error.inj h
                exact this ▸ parseTests_error (trimStr rawCategory) ts 0 seq e' hpt
            | ok out =>
                rcases out with ⟨gs, fs, seq0⟩
                rw [hpt] at h
                exact ih (objUpd source (trimStr rawCategory) gs) (flattened ++ fs)
                  seq0 m h
        | null =>
            exact Or.inr (Or.inr (Or.inr (Or.inl
              ⟨trimStr rawCategory, (Except.error.inj h).symm⟩)))
        | bool b =>
            exact Or.inr (Or.inr (Or.inr (Or.inl
              ⟨trimStr rawCategory, (Except.error.inj h).symm⟩)))
        | num n =>
            exact Or.inr (Or.inr (Or.inr (Or.inl
              ⟨trimStr rawCategory, (Except.error.inj h).symm⟩)))
        | str s =>
            exact Or.inr (Or.inr (Or.inr (Or.inl
              ⟨trimStr rawCategory, (Except.error.inj h).symm⟩)))
        | obj fields =>
            exact Or.inr (Or.inr (Or.inr (Or.inl
              ⟨trimStr rawCategory, (Except.error.inj h).symm⟩)))

/-- C3: for every input string, parse either succeeds with a flattened
list of length at least one, or fails with one of the enumerated
ValidationError messages; it never raises anything else and returns no
partial result on failure (the error carries only its message). -/
theorem parsePlan_total (raw : Option Json) :
    (∃ source flattened, parsePlan raw = Except.ok (source, flattened) ∧
      1 ≤ flattened.length) ∨
    (∃ m, parsePlan raw = Except.error m ∧ validationMsg m) := by
  cases raw with
  | none => exact Or.inr ⟨msgInvalidJson, rfl, Or.inl rfl⟩
  | some parsed =>
      cases parsed with
      | obj entries =>
          simp only [parsePlan]
          cases hpe : parseEntries entries [] [] 1 with
          | error e =>
              exact Or.inr ⟨e, rfl, parseEntries_error entries [] [] 1 e hpe⟩
          | ok out =>
              rcases out with ⟨source, flattened, seq'⟩
              dsimp only
              by_cases hlen : flattened.length = 0
              · rw [if_pos hlen]
                exact Or.inr ⟨msgNoTests, rfl,
                  Or.inr (Or.inr (Or.inr (Or.inr (Or.inr (Or.inr rfl)))))⟩
              · rw [if_neg hlen]
                exact Or.inl ⟨source, flattened, rfl, by omega⟩
      | null => exact Or.inr ⟨msgRootObject, rfl, Or.inr (Or.inl rfl)⟩
      | bool b => exact Or.inr ⟨msgRootObject, rfl, Or.inr (Or.inl rfl)⟩
      | num n => exact Or.inr ⟨msgRootObject, rfl, Or.inr (Or.inl rfl)⟩
      | str s => exact Or.inr ⟨msgRootObject, rfl, Or.inr (Or.inl rfl)⟩
      | arr elems => exact Or.inr ⟨msgRootObject, rfl, Or.inr (Or.inl rfl)⟩

/-- The number of results in the given category. -/
def countCat (results : List TestResult) (c : String) : Nat :=
  (results.filter (fun r => decide (r.category = c))).length

/-- The number of passing results in the given category. -/
def countCatPass (results : List TestResult) (c : String) : Nat :=
  (results.filter
    (fun r => decide (r.category = c ∧ r.verdict = Verdict.pass))).length

/-- The number of non-passing results in the given category. -/
def countCatFail (results : List TestResult) (c : String) : Nat :=
  (results.filter
    (fun r => decide (r.category = c ∧ ¬(r.verdict = Verdict.pass)))).length

/-- The per-result increment applied to a category's counters. -/
def bumpCount (cc : CatCount) (v : Verdict) : CatCount :=
  if v = Verdict.pass then
    { passed := cc.passed + 1, failed := cc.failed, total := cc.total + 1 }
  else
    { passed := cc.passed, failed := cc.failed + 1, total := cc.total + 1 }

theorem objGet_objUpd {α : Type} :
    ∀ (m : List (String × α)) (k c : String) (v : α),
      objGet (objUpd m k v) c = if k = c then some v else objGet m c := by
  intro m k c v
  induction m with
  | nil => rfl
  | cons p rest ih =>
      rcases p with ⟨k', v'⟩
      by_cases hk : k' = k
      · subst hk
        simp only [objUpd, if_pos rfl, objGet]
        by_cases hc : k' = c
        · rw [if_pos hc, if_pos hc]
        · rw [if_neg hc, if_neg hc, if_neg hc]
      · simp only [objUpd, if_neg hk, objGet]
        by_cases hc : k' = c
        · have hkc : ¬(k = c) := fun he => hk (hc.trans he.symm)
          rw [if_pos hc, if_pos hc, if_neg hkc]
        · rw [if_neg hc, if_neg hc, ih]

theorem applyResult_objGet (s : CategorySummary) (r : TestResult) (c : String) :
    objGet (applyResult s r) c =
      if r.category = c then
        some (bumpCount ((objGet s r.category).getD
          { passed := 0, failed := 0, total := 0 }) r.verdict)
      else objGet s c := by
  simp only [applyResult]
  cases hb : objGet s r.category with
  | none =>
      simp only [hb]
      rw [objGet_objUpd, objGet_objUpd, objGet_objUpd]
      by_cases hc : r.category = c
      · simp only [if_pos hc, if_pos rfl, Option.getD]
        cases hv : r.verdict <;> simp [bumpCount, hv]
      · simp [if_neg hc]
  | some cc =>
      simp only [hb]
      rw [objGet_objUpd]
      by_cases hc : r.category = c
      · simp only [if_pos hc, hb, Option.getD]
        cases hv : r.verdict <;> simp [bumpCount, hv]
      · simp [if_neg hc]

theorem countCat_cons (r : TestResult) (rest : List TestResult) (c : String) :
    countCat (r :: rest) c =
      (if r.category = c then 1 else 0) + countCat rest c := by
  simp only [countCat, List.filter_cons]
  by_cases hc : r.category = c
  · simp [hc]
    omega
  · simp [hc]

theorem countCatPass_cons (r : TestResult) (rest : List TestResult) (c : String) :
    countCatPass (r :: rest) c =
      (if r.category = c ∧ r.verdict = Verdict.pass then 1 else 0) +
        countCatPass rest c := by
  simp only [countCatPass, List.filter_cons]
  by_cases hc : r.category = c ∧ r.verdict = Verdict.pass
  · simp [hc]
    omega
  · simp [hc]

theorem countCatFail_cons (r : TestResult) (rest : List TestResult) (c : String) :
    countCatFail (r :: rest) c =
      (if r.category = c ∧ ¬(r.verdict = Verdict.pass) then 1 else 0) +
        countCatFail rest c := by
  simp only [countCatFail, List.filter_cons]
  by_cases hc : r.category = c ∧ ¬(r.verdict = Verdict.pass)
  · simp [hc]
    omega
  · simp [hc]

theorem foldl_applyResult_objGet :
    ∀ (results : List TestResult) (s : CategorySummary) (c : String),
      objGet (results.foldl applyResult s) c =
        match objGet s c with
        | some cc =>
            some { passed := cc.passed + countCatPass results c,
                   failed := cc.failed + countCatFail results c,
                   total := cc.total + countCat results c }
        | none =>
            if countCat results c = 0 then none
            else
              some { passed := countCatPass results c,
                     failed := countCatFail results c,
                     total := countCat results c } := by
  intro results
  induction results with
  | nil =>
      intro s c
      cases h : objGet s c <;>
        simp [h, countCat, countCatPass, countCatFail]
  | cons r rest ih =>
      intro s c
      rw [List.foldl_cons, ih (applyResult s r) c, applyResult_objGet]
      by_cases hc : r.category = c
      · subst hc
        rw [if_pos rfl]
        cases hg : objGet s r.category with
        | some cc =>
            cases hv : r.verdict <;>
              simp [hg, hv, bumpCount, countCat_cons, countCatPass_cons,
                countCatFail_cons, CatCount.mk.injEq] <;> omega
        | none =>
            cases hv : r.verdict <;>
              simp [hg, hv, bumpCount, countCat_cons, countCatPass_cons,
                countCatFail_cons, CatCount.mk.injEq] <;> omega
      · rw [if_neg hc]
        cases hg : objGet s c <;>
          simp [hg, countCat_cons, countCatPass_cons, countCatFail_cons, hc]

/-- The root entries of a two-category sample plan (as JSON.parse would
deliver them). -/
def sampleEntries : List (String × Json) :=
  [("A", Json.arr [Json.obj [("action", Json.str "a"), ("result", Json.str "b")]]),
   ("B", Json.arr [Json.obj [("action", Json.str "c"), ("result", Json.str "d")]])]

/-- The two-category sample plan value. -/
def sampleJson : Json := Json.obj sampleEntries

/-- The source mapping `parsePlan` produces for `sampleJson`. -/
def sampleSrc : PlanInput :=
  [("A", [{ action := "a", result := "b" }]),
   ("B", [{ action := "c", result := "d" }])]

/-- The flattened list `parsePlan` produces for `sampleJson`. -/
def sampleFlat : List FlatTest :=
  [{ id := "A-0-1", category := "A", action := "a", expected := "b", sequence := 1 },
   { id := "B-0-2", category := "B", action := "c", expected := "d", sequence := 2 }]

/-- A fixed generator record for concrete instantiations. -/
def gen0 : Gen := { newId := "report-1", now := "2026-01-01T00:00:00.000Z" }

/-- The first flattened test of the sample plan. -/
def t1 : FlatTest :=
  { id := "A-0-1", category := "A", action := "a", expected := "b", sequence := 1 }

/-- The second flattened test of the sample plan. -/
def t2 : FlatTest :=
  { id := "B-0-2", category := "B", action := "c", expected := "d", sequence := 2 }

/-- A concrete idle (start-screen) state. -/
def startState : RunState :=
  { step := Step.start, suiteName := "Regression Plan", sourcePlan := none,
    tests := [], cursor := 0, results := [], commentDrafts := [],
    dragOffset := 0, isDragging := false, exitVerdict := none,
    swipeTimeout := none, history := [], activeReportId := none }

/-- A concrete running state over the sample plan, at cursor 0. -/
def runningState : RunState :=
  { step := Step.run, suiteName := "Suite", sourcePlan := some sampleSrc,
    tests := [t1, t2], cursor := 0, results := [none, none],
    commentDrafts := [], dragOffset := 0, isDragging := false,
    exitVerdict := none, swipeTimeout := none, history := [],
    activeReportId := none }

/-- A concrete running state over a one-test plan, at cursor 0. -/
def oneTestState : RunState :=
  { step := Step.run, suiteName := "Suite",
    sourcePlan := some [("A", [{ action := "a", result := "b" }])],
    tests := [t1], cursor := 0, results := [none],
    commentDrafts := [], dragOffset := 0, isDragging := false,
    exitVerdict := none, swipeTimeout := none, history := [],
    activeReportId := none }

/-- `runningState` with a verdict commit in flight. -/
def lockedState : RunState :=
  { runningState with
      exitVerdict := some Verdict.pass, swipeTimeout := some Verdict.pass }

/-- C6: for every report built from a results list, `passed` counts the
Pass verdicts, `failed` is the length minus `passed`, `total` is the
length (so passed + failed = total = results.length), and `byCategory`
maps exactly the categories occurring in the results — keyed by their
literal, case-sensitive string — to that category's pass/fail/total
counts. -/
theorem buildReport_counts (newId now suiteName : String) (source : PlanInput)
    (results : List TestResult) :
    (buildReport newId now suiteName source results).passed =
        (results.filter (fun r => decide (r.verdict = Verdict.pass))).length ∧
    (buildReport newId now suiteName source results).failed =
        results.length - (buildReport newId now suiteName source results).passed ∧
    (buildReport newId now suiteName source results).total = results.length ∧
    (buildReport newId now suiteName source results).passed +
        (buildReport newId now suiteName source results).failed =
      (buildReport newId now suiteName source results).total ∧
    ∀ c, objGet (buildReport newId now suiteName source results).byCategory c =
      if countCat results c = 0 then none
      else
        some { passed := countCatPass results c,
               failed := countCatFail results c,
               total := countCat results c } := by
  refine ⟨rfl, rfl, rfl, ?_, ?_⟩
  · have hle : (results.filter (fun r => decide (r.verdict = Verdict.pass))).length ≤
        results.length := List.length_filter_le _ _
    simp only [buildReport]
    omega
  · intro c
    have h := foldl_applyResult_objGet results [] c
    simpa [buildReport, getCategorySummary, objGet] using h

/-- C7: appending a report to the history prepends it and truncates to
the 50-item cap, so the front is the new report, the surviving old
entries keep their relative order, only the oldest beyond the cap are
dropped, and every history-mutating operation preserves the cap. -/
theorem history_capped (gen : Gen) (report : SavedReport) (st : RunState)
    (stored : List SavedReport) (reportId : String)
    (nextResults : List (Option TestResult))
    (hst : st.history.length ≤ maxHistoryItems)
    (hstored : stored.length ≤ maxHistoryItems) :
    (appendHistory report st.history).length ≤ maxHistoryItems ∧
    appendHistory report st.history =
      report :: st.history.take (maxHistoryItems - 1) ∧
    (st.history.length + 1 ≤ maxHistoryItems →
      appendHistory report st.history = report :: st.history) ∧
    (finishRun gen nextResults st).history.length ≤ maxHistoryItems ∧
    (deleteReport reportId st).history.length ≤ maxHistoryItems ∧
    (clearHistory st).history.length ≤ maxHistoryItems ∧
    (loadHistory stored st).history.length ≤ maxHistoryItems := by
  have happ : ∀ h : List SavedReport,
      (appendHistory report h).length ≤ maxHistoryItems := by
    intro h
    simp only [appendHistory]
    have := List.length_take_le maxHistoryItems (report :: h)
    omega
  refine ⟨happ st.history, ?_, ?_, ?_, ?_, ?_, hstored⟩
  · simp only [appendHistory]
    rw [show maxHistoryItems = 49 + 1 from rfl]
    simp [List.take_succ_cons]
  · intro hlt
    simp only [appendHistory]
    apply List.take_of_length_le
    simp only [List.length_cons]
    exact hlt
  · simp only [finishRun]
    cases hsp : st.sourcePlan with
    | none => exact hst
    | some sp => exact happ st.history
  · simp only [deleteReport]
    have hfil : (st.history.filter
        (fun item => decide ¬(item.id = reportId))).length ≤
          st.history.length := List.length_filter_le _ _
    split <;> simp only [] <;> omega
  · simp [clearHistory]

/-- A concrete empty report for instantiations. -/
def report0 : SavedReport :=
  { id := "r0", suiteName := "S", createdAt := "t", total := 0, passed := 0,
    failed := 0, byCategory := [], results := [], source := [] }

/-- Witness: the history-cap theorem applied at a concrete state. -/
theorem history_capped_witness :
    startState.history.length ≤ maxHistoryItems ∧
    ([] : List SavedReport).length ≤ maxHistoryItems ∧
    appendHistory report0 startState.history =
      report0 :: startState.history.take (maxHistoryItems - 1) :=
  ⟨by decide, by decide,
    (history_capped gen0 report0 startState [] "x" []
      (by decide) (by decide)).2.1⟩

/-- C9: while a verdict commit is in flight (the exit animation between
a triggered verdict and its delayed application), every further
recordVerdict or undoLast request is rejected and leaves the whole
state — in particular tests, cursor, results and comment drafts —
unchanged. -/
theorem inflight_locked (st : RunState) (w : Verdict)
    (hw : st.exitVerdict = some w) (d : Int) (v : Verdict) :
    recordVerdict d v st = st ∧ undoLast st = st := by
  constructor
  · simp [recordVerdict, hw]
  · simp [undoLast, hw]

/-- Witness: the in-flight lock theorem applied at a concrete state. -/
theorem inflight_locked_witness :
    lockedState.exitVerdict = some Verdict.pass ∧
    recordVerdict 480 Verdict.pass lockedState = lockedState ∧
    undoLast lockedState = lockedState :=
  ⟨rfl,
   (inflight_locked lockedState Verdict.pass rfl 480 Verdict.pass).1,
   (inflight_locked lockedState Verdict.pass rfl 480 Verdict.pass).2⟩

/-- C10: recordVerdict, undoLast and commitVerdict called outside their
preconditions (wrong step, no test at the cursor, cursor at zero for
undo, or a commit in flight) return the state unchanged, raising no
error. -/
theorem invalid_calls_noop (st : RunState) (gen : Gen) (d : Int) (v : Verdict) :
    (st.step ≠ Step.run ∨ st.tests.get? st.cursor = none ∨
        st.exitVerdict ≠ none → recordVerdict d v st = st) ∧
    (st.step ≠ Step.run ∨ st.cursor = 0 ∨ st.exitVerdict ≠ none →
      undoLast st = st) ∧
    (st.step ≠ Step.run ∨ st.tests.get? st.cursor = none →
      commitVerdict gen v st = st) := by
  refine ⟨?_, ?_, ?_⟩
  · intro h
    rcases h with h | h | h
    · simp [recordVerdict, h]
    · simp only [recordVerdict, h]
      split
      · rfl
      · rfl
    · simp [recordVerdict, h]
  · intro h
    rcases h with h | h | h
    · simp [undoLast, h]
    · simp [undoLast, h]
    · simp [undoLast, h]
  · intro h
    rcases h with h | h
    · simp [commitVerdict, h]
    · simp only [commitVerdict, h]
      split
      · rfl
      · rfl

/-- Witness: the invalid-call no-op theorem applied at a concrete
non-running state. -/
theorem invalid_calls_noop_witness :
    startState.step ≠ Step.run ∧
    recordVerdict 480 Verdict.pass startState = startState ∧
    undoLast startState = startState ∧
    commitVerdict gen0 Verdict.pass startState = startState :=
  ⟨by decide,
   (invalid_calls_noop startState gen0 480 Verdict.pass).1 (Or.inl (by decide)),
   (invalid_calls_noop startState gen0 480 Verdict.pass).2.1 (Or.inl (by decide)),
   (invalid_calls_noop startState gen0 480 Verdict.pass).2.2 (Or.inl (by decide))⟩

theorem set_get?_self {α : Type} :
    ∀ (l : List α) (i : Nat) (v : α), l.get? i = some v → l.set i v = l := by
  intro l
  induction l with
  | nil => intro i v h; simp at h
  | cons a rest ih =>
      intro i v h
      cases i with
      | zero =>
          simp only [List.get?_cons_zero, Option.some_inj] at h
          simp [List.set, h]
      | succ j =>
          simp only [List.get?_cons_succ] at h
          simp [List.set, ih j v h]

theorem commitVerdict_mid (gen : Gen) (v : Verdict) (st : RunState)
    (target : FlatTest) (hstep : st.step = Step.run)
    (htarget : st.tests.get? st.cursor = some target)
    (hlt : st.cursor + 1 < st.tests.length) :
    commitVerdict gen v st =
      { st with
          results := st.results.set st.cursor (some (commitEntry st target v))
          isDragging := false
          cursor := st.cursor + 1 } := by
  have hguard : ¬(st.step ≠ Step.run) := by simp [hstep]
  unfold commitVerdict
  rw [if_neg hguard, htarget]
  dsimp only
  rw [if_neg (by omega : ¬(st.tests.length ≤ st.cursor + 1))]

theorem commitVerdict_last (gen : Gen) (v : Verdict) (st : RunState)
    (target : FlatTest) (hstep : st.step = Step.run)
    (htarget : st.tests.get? st.cursor = some target)
    (heq : st.cursor + 1 = st.tests.length)
    (sp : PlanInput) (hsp : st.sourcePlan = some sp) :
    commitVerdict gen v st =
      { st with
          results := st.results.set st.cursor (some (commitEntry st target v))
          isDragging := false
          step := Step.report
          history := appendHistory
            (buildReport gen.newId gen.now (reportSuiteName st.suiteName) sp
              ((st.results.set st.cursor
                  (some (commitEntry st target v))).filterMap (fun x => x)))
            st.history
          activeReportId := some gen.newId } := by
  have hguard : ¬(st.step ≠ Step.run) := by simp [hstep]
  unfold commitVerdict
  rw [if_neg hguard, htarget]
  dsimp only
  rw [if_pos (by omega : st.tests.length ≤ st.cursor + 1)]
  unfold finishRun
  dsimp only
  rw [hsp]
  rfl

/-- C1 (amended): in the running step with a test at the cursor,
committing a verdict reads and trims the draft comment for that test,
stores the TestResult at `results[cursor]`, and — when the advanced
cursor is still short of `tests.length` — advances the stored cursor by
one; when the advanced cursor reaches `tests.length` the stored cursor
is left unchanged and the engine instead moves to the report step,
building the report from the non-null entries of the updated results in
their stored order (given a loaded source plan). -/
theorem commitVerdict_spec (gen : Gen) (v : Verdict) (st : RunState)
    (target : FlatTest) (hstep : st.step = Step.run)
    (htarget : st.tests.get? st.cursor = some target) :
    (st.cursor + 1 < st.tests.length →
      commitVerdict gen v st =
        { st with
            results := st.results.set st.cursor (some (commitEntry st target v))
            isDragging := false
            cursor := st.cursor + 1 }) ∧
    (st.cursor + 1 = st.tests.length → ∀ sp, st.sourcePlan = some sp →
      commitVerdict gen v st =
        { st with
            results := st.results.set st.cursor (some (commitEntry st target v))
            isDragging := false
            step := Step.report
            history := appendHistory
              (buildReport gen.newId gen.now (reportSuiteName st.suiteName) sp
                ((st.results.set st.cursor
                    (some (commitEntry st target v))).filterMap (fun x => x)))
              st.history
            activeReportId := some gen.newId }) := by
  constructor
  · intro hlt
    exact commitVerdict_mid gen v st target hstep htarget hlt
  · intro heq sp hsp
    exact commitVerdict_last gen v st target hstep htarget heq sp hsp

/-- Counterexample to C1 as stated: committing the verdict of the last
test does not advance the stored cursor (the claim says the cursor is
always advanced by one); the engine moves to the report step with the
cursor still at its old value. -/
theorem commitVerdict_last_no_advance :
    oneTestState.step = Step.run ∧
    oneTestState.tests.get? oneTestState.cursor = some t1 ∧
    ¬((commitVerdict gen0 Verdict.pass oneTestState).cursor =
        oneTestState.cursor + 1) ∧
    (commitVerdict gen0 Verdict.pass oneTestState).step = Step.report := by
  refine ⟨rfl, rfl, ?_, ?_⟩
  · decide
  · decide

/-- Witness: the amended commit theorem applied at a concrete running
state with a test remaining. -/
theorem commitVerdict_spec_witness :
    runningState.step = Step.run ∧
    runningState.tests.get? runningState.cursor = some t1 ∧
    runningState.cursor + 1 < runningState.tests.length ∧
    commitVerdict gen0 Verdict.pass runningState =
      { runningState with
          results := runningState.results.set runningState.cursor
            (some (commitEntry runningState t1 Verdict.pass))
          isDragging := false
          cursor := runningState.cursor + 1 } :=
  ⟨rfl, rfl, by decide,
   (commitVerdict_spec gen0 Verdict.pass runningState t1 rfl rfl).1 (by decide)⟩

theorem commitThenUndo_eq (gen : Gen) (v : Verdict) (st : RunState)
    (target : FlatTest) (hstep : st.step = Step.run)
    (hexit : st.exitVerdict = none)
    (htarget : st.tests.get? st.cursor = some target)
    (hlt : st.cursor + 1 < st.tests.length)
    (hres : st.results.get? st.cursor = some none) :
    undoLast (commitVerdict gen v st) =
      { st with dragOffset := 0, isDragging := false } := by
  rw [commitVerdict_mid gen v st target hstep htarget hlt]
  have hres2 : ((st.results.set st.cursor
      (some (commitEntry st target v))).set (st.cursor + 1 - 1) none) =
        st.results := by
    rw [show st.cursor + 1 - 1 = st.cursor from rfl, List.set_set]
    exact set_get?_self st.results st.cursor none hres
  unfold undoLast
  rw [if_neg]
  · dsimp only
    rw [hres2]
    simp
  · dsimp only
    rw [hstep, hexit]
    simp

/-- C2 (amended): in the running step with no commit in flight,
undoLast clears `results[cursor-1]`, decrements the cursor and leaves
the comment drafts unchanged; and when a test is at the cursor, its
slot is still pending and it is not the last test, committing a verdict
and then undoing restores the cursor, results and drafts exactly (only
the transient drag visuals are reset), so repeating the commit-then-undo
pair any number of times is a no-op on the run state. -/
theorem undo_inverts_commit (st : RunState) (hstep : st.step = Step.run)
    (hexit : st.exitVerdict = none) :
    (0 < st.cursor →
      undoLast st =
        { st with
            results := st.results.set (st.cursor - 1) none
            cursor := st.cursor - 1
            dragOffset := 0
            isDragging := false }) ∧
    (∀ gen v target, st.tests.get? st.cursor = some target →
      st.cursor + 1 < st.tests.length →
      st.results.get? st.cursor = some none →
      undoLast (commitVerdict gen v st) =
        { st with dragOffset := 0, isDragging := false } ∧
      ∀ n : Nat,
        (fun s => undoLast (commitVerdict gen v s))^[n]
            { st with dragOffset := 0, isDragging := false } =
          { st with dragOffset := 0, isDragging := false }) := by
  constructor
  · intro hpos
    have hguard : ¬(st.step ≠ Step.run ∨ st.cursor = 0 ∨
        st.exitVerdict ≠ none) := by
      simp [hstep, hexit]
      omega
    unfold undoLast
    rw [if_neg hguard]
  · intro gen v target htarget hlt hres
    refine ⟨commitThenUndo_eq gen v st target hstep hexit htarget hlt hres, ?_⟩
    intro n
    apply Function.iterate_fixed
    exact commitThenUndo_eq gen v
      { st with dragOffset := 0, isDragging := false } target hstep hexit
      htarget hlt hres

/-- Counterexample to C2 as stated: at the last test of a running
state, commit-then-undo does not restore the state — the commit
finishes the run, after which the undo is rejected, leaving the
committed result in place. -/
theorem commit_undo_not_inverse :
    oneTestState.step = Step.run ∧
    oneTestState.exitVerdict = none ∧
    oneTestState.tests.get? oneTestState.cursor = some t1 ∧
    ¬((undoLast (commitVerdict gen0 Verdict.pass oneTestState)).results =
        oneTestState.results) ∧
    (undoLast (commitVerdict gen0 Verdict.pass oneTestState)).step =
      Step.report := by
  refine ⟨rfl, rfl, rfl, ?_, ?_⟩
  · decide
  · decide

/-- Witness: the amended undo theorem applied at a concrete running
state. -/
theorem undo_inverts_commit_witness :
    runningState.step = Step.run ∧
    runningState.exitVerdict = none ∧
    undoLast (commitVerdict gen0 Verdict.pass runningState) =
      { runningState with dragOffset := 0, isDragging := false } :=
  ⟨rfl, rfl,
   ((undo_inverts_commit runningState rfl rfl).2 gen0 Verdict.pass t1 rfl
      (by decide) (by decide)).1⟩

theorem parsePlan_ok_char (entries : List (String × Json)) (src : PlanInput)
    (flat : List FlatTest)
    (hok : parsePlan (some (Json.obj entries)) = Except.ok (src, flat)) :
    ∃ bs, blocksOf entries = some bs ∧ src = sourceOfBlocks [] bs ∧
      flat = flatOfBlocks 1 bs ∧ 1 ≤ flat.length := by
  simp only [parsePlan] at hok
  cases hpe : parseEntries entries [] [] 1 with
  | error e =>
      rw [hpe] at hok
      exact absurd hok (by simp)
  | ok out =>
      rcases out with ⟨src0, flat0, seq0⟩
      rw [hpe] at hok
      dsimp only at hok
      by_cases hlen : flat0.length = 0
      · rw [if_pos hlen] at hok
        exact absurd hok (by simp)
      · rw [if_neg hlen] at hok
        simp only [Except.ok.injEq, Prod.mk.injEq] at hok
        rcases hok with ⟨h1, h2⟩
        subst h1
        subst h2
        rcases parseEntries_ok entries [] [] 1 src0 flat0 seq0 hpe with
          ⟨bs, hb, hs, hf, _⟩
        refine ⟨bs, hb, hs, by simpa using hf, by omega⟩

theorem objGet_append_right {α : Type} :
    ∀ (m l : List (String × α)) (c : String), c ∉ m.map Prod.fst →
      objGet (m ++ l) c = objGet l c := by
  intro m
  induction m with
  | nil => intro l c _; rfl
  | cons p rest ih =>
      intro l c hc
      rcases p with ⟨k, v⟩
      simp only [List.map_cons, List.mem_cons] at hc
      have hk : ¬(k = c) := fun he => hc (Or.inl he.symm)
      simp only [List.cons_append, objGet, if_neg hk]
      exact ih l c (fun he => hc (Or.inr he))

theorem objUpd_append {α : Type} :
    ∀ (m l : List (String × α)) (c : String) (w : α), c ∉ m.map Prod.fst →
      objUpd (m ++ l) c w = m ++ objUpd l c w := by
  intro m
  induction m with
  | nil => intro l c w _; rfl
  | cons p rest ih =>
      intro l c w hc
      rcases p with ⟨k, v⟩
      simp only [List.map_cons, List.mem_cons] at hc
      have hk : ¬(k = c) := fun he => hc (Or.inl he.symm)
      simp only [List.cons_append, objUpd, if_neg hk, List.cons.injEq, true_and]
      exact ih l c w (fun he => hc (Or.inr he))

theorem objUpd_same {α : Type} :
    ∀ (m : List (String × α)) (c : String) (v : α), objGet m c = some v →
      objUpd m c v = m := by
  intro m
  induction m with
  | nil => intro c v h; simp [objGet] at h
  | cons p rest ih =>
      intro c v h
      rcases p with ⟨k, v'⟩
      simp only [objGet] at h
      by_cases hk : k = c
      · rw [if_pos hk] at h
        have := Option.some_inj.mp h
        simp [objUpd, hk, this]
      · rw [if_neg hk] at h
        simp [objUpd, hk, ih c v h]

theorem objUpd_objUpd {α : Type} :
    ∀ (m : List (String × α)) (c : String) (v w : α),
      objUpd (objUpd m c v) c w = objUpd m c w := by
  intro m
  induction m with
  | nil => intro c v w; simp [objUpd]
  | cons p rest ih =>
      intro c v w
      rcases p with ⟨k, v'⟩
      by_cases hk : k = c
      · simp [objUpd, hk]
      · simp [objUpd, hk, ih c v w]

theorem regroup_flatsFrom :
    ∀ (gs : List PlanGroup) (m : PlanInput) (gs0 : List PlanGroup)
      (c : String) (idx seq : Nat), objGet m c = some gs0 →
      List.foldl regroupStep m (flatsFrom c idx seq gs) =
        objUpd m c (gs0 ++ gs) := by
  intro gs
  induction gs with
  | nil =>
      intro m gs0 c idx seq h
      simp only [flatsFrom, List.foldl_nil, List.append_nil]
      exact (objUpd_same m c gs0 h).symm
  | cons g rest ih =>
      intro m gs0 c idx seq h
      simp only [flatsFrom, List.foldl_cons]
      have hstep : regroupStep m
          { id := mkTestId c idx seq, category := c, action := g.action,
            expected := g.result, sequence := seq } =
            objUpd m c (gs0 ++ [g]) := by
        simp only [regroupStep]
        rw [h]
      rw [hstep]
      rw [ih (objUpd m c (gs0 ++ [g])) (gs0 ++ [g]) c (idx + 1) (seq + 1)
        (by rw [objGet_objUpd]; simp)]
      rw [objUpd_objUpd]
      simp

theorem regroup_flatsFrom_fresh :
    ∀ (g : PlanGroup) (gs : List PlanGroup) (m : PlanInput) (c : String)
      (idx seq : Nat), c ∉ m.map Prod.fst →
      List.foldl regroupStep m (flatsFrom c idx seq (g :: gs)) =
        m ++ [(c, g :: gs)] := by
  intro g gs m c idx seq hc
  simp only [flatsFrom, List.foldl_cons]
  have h0 : objGet m c = none := (objGet_eq_none m c).mpr hc
  have hstep : regroupStep m
      { id := mkTestId c idx seq, category := c, action := g.action,
        expected := g.result, sequence := seq } = m ++ [(c, [g])] := by
    simp only [regroupStep]
    rw [h0]
  rw [hstep]
  have hg : objGet (m ++ [(c, [g])]) c = some [g] := by
    rw [objGet_append_right m _ c hc]
    simp [objGet]
  rw [regroup_flatsFrom gs (m ++ [(c, [g])]) [g] c (idx + 1) (seq + 1) hg]
  rw [objUpd_append m [(c, [g])] c ([g] ++ gs) hc]
  simp [objUpd]

theorem regroup_flatOfBlocks :
    ∀ (bs : List (String × List PlanGroup)) (m : PlanInput) (seq : Nat),
      (bs.map Prod.fst).Nodup →
      (∀ k ∈ bs.map Prod.fst, k ∉ m.map Prod.fst) →
      (∀ b ∈ bs, b.2 ≠ ([] : List PlanGroup)) →
      List.foldl regroupStep m (flatOfBlocks seq bs) = m ++ bs := by
  intro bs
  induction bs with
  | nil => intro m seq _ _ _; simp [flatOfBlocks]
  | cons b rest ih =>
      intro m seq hnd hdisj hne
      rcases b with ⟨c, gs⟩
      rcases gs with _ | ⟨g, gs'⟩
      · exact absurd rfl (hne (c, []) (by simp))
      · simp only [flatOfBlocks, List.foldl_append]
        rw [regroup_flatsFrom_fresh g gs' m c 0 seq (hdisj c (by simp))]
        simp only [List.map_cons, List.nodup_cons] at hnd
        have hdisj2 : ∀ k ∈ rest.map Prod.fst,
            k ∉ (m ++ [(c, g :: gs')]).map Prod.fst := by
          intro k hk
          simp only [List.map_append, List.mem_append, List.map_cons,
            List.map_nil, List.mem_singleton]
          intro hmem
          rcases hmem with hmem | hmem
          · exact hdisj k (by simp [hk]) hmem
          · exact hnd.1 (hmem ▸ hk)
        rw [ih (m ++ [(c, g :: gs')]) (seq + (g :: gs').length) hnd.2 hdisj2
          (fun b hb => hne b (by simp [hb]))]
        simp

/-- C5 (amended): on every successful parse whose trimmed category
names are pairwise distinct, the returned source is exactly the input
entries with category names and item fields trimmed, in input order
(`blocksOf`), the flattened sequence lists those categories' items in
category order then item order (`flatOfBlocks`), and `sequence` is the
1-based global position of each flattened test. -/
theorem parse_preserves_order (entries : List (String × Json))
    (src : PlanInput) (flat : List FlatTest)
    (hok : parsePlan (some (Json.obj entries)) = Except.ok (src, flat))
    (hnodup : (entries.map (fun e => trimStr e.1)).Nodup) :
    ∃ bs, blocksOf entries = some bs ∧ src = bs ∧
      flat = flatOfBlocks 1 bs ∧
      ∀ i : Nat, ∀ t : FlatTest, flat[i]? = some t → t.sequence = i + 1 := by
  rcases parsePlan_ok_char entries src flat hok with ⟨bs, hb, hs, hf, hlen⟩
  have hkeys : bs.map Prod.fst = entries.map (fun e => trimStr e.1) :=
    blocksOf_keys entries bs hb
  have hnd : (bs.map Prod.fst).Nodup := by
    rw [hkeys]
    exact hnodup
  have hsrc : src = bs := by
    rw [hs, sourceOfBlocks_fresh bs [] hnd (by simp)]
    simp
  refine ⟨bs, hb, hsrc, hf, ?_⟩
  intro i t ht
  rw [hf] at ht
  have hseq := (flatOfBlocks_getElem? bs 1 i t ht).1
  omega

/-- The collision input: two distinct raw category names that trim to
the same category. -/
def collideEntries : List (String × Json) :=
  [("A", Json.arr [Json.obj [("action", Json.str "a"), ("result", Json.str "b")]]),
   ("A ", Json.arr [Json.obj [("action", Json.str "c"), ("result", Json.str "d")]])]

/-- The source `parsePlan` returns for the collision input: the first
category's items have been overwritten. -/
def collideSrc : PlanInput := [("A", [{ action := "c", result := "d" }])]

/-- The flattened list `parsePlan` returns for the collision input. -/
def collideFlat : List FlatTest :=
  [{ id := "A-0-1", category := "A", action := "a", expected := "b", sequence := 1 },
   { id := "A-0-2", category := "A", action := "c", expected := "d", sequence := 2 }]

/-- Counterexample to C5 as stated: on an input whose two raw category
names trim to the same string, the parse succeeds, but the input's
per-category items are not preserved in the returned source — the first
category's item (action "a") appears in the flattened list yet in no
category of the source. -/
theorem parse_order_collision_cex :
    parsePlan (some (Json.obj collideEntries)) =
      Except.ok (collideSrc, collideFlat) ∧
    (∃ t ∈ collideFlat, t.action = "a") ∧
    (∀ p ∈ collideSrc, ∀ g ∈ p.2, ¬(g.action = "a")) := by
  refine ⟨rfl, ?_, ?_⟩
  · decide
  · decide

/-- Witness: the order-preservation theorem applied to the sample
plan. -/
theorem parse_preserves_order_witness :
    (sampleEntries.map (fun e => trimStr e.1)).Nodup ∧
    (∃ bs, blocksOf sampleEntries = some bs ∧ sampleSrc = bs ∧
      sampleFlat = flatOfBlocks 1 bs ∧
      ∀ i : Nat, ∀ t : FlatTest, sampleFlat[i]? = some t →
        t.sequence = i + 1) :=
  ⟨by decide,
   parse_preserves_order sampleEntries sampleSrc sampleFlat rfl (by decide)⟩

/-- C4 (amended): on every successful parse whose trimmed category
names are pairwise distinct and whose categories are all non-empty,
re-grouping the flattened list by category (ignoring id and sequence)
reproduces the returned source exactly. -/
theorem regroup_roundtrip (entries : List (String × Json)) (src : PlanInput)
    (flat : List FlatTest)
    (hok : parsePlan (some (Json.obj entries)) = Except.ok (src, flat))
    (hnodup : (entries.map (fun e => trimStr e.1)).Nodup)
    (hne : ∀ p ∈ src, p.2 ≠ ([] : List PlanGroup)) :
    regroup flat = src := by
  rcases parsePlan_ok_char entries src flat hok with ⟨bs, hb, hs, hf, hlen⟩
  have hkeys : bs.map Prod.fst = entries.map (fun e => trimStr e.1) :=
    blocksOf_keys entries bs hb
  have hnd : (bs.map Prod.fst).Nodup := by
    rw [hkeys]
    exact hnodup
  have hsrc : src = bs := by
    rw [hs, sourceOfBlocks_fresh bs [] hnd (by simp)]
    simp
  have hne2 : ∀ b ∈ bs, b.2 ≠ ([] : List PlanGroup) := by
    intro b hbmem
    refine hne b ?_
    rw [hsrc]
    exact hbmem
  rw [hf, hsrc]
  unfold regroup
  rw [regroup_flatOfBlocks bs [] 1 hnd (by simp) hne2]
  simp

/-- The empty-category input: a category whose array holds no tests. -/
def emptyCatEntries : List (String × Json) :=
  [("A", Json.arr []),
   ("B", Json.arr [Json.obj [("action", Json.str "c"), ("result", Json.str "d")]])]

/-- The source `parsePlan` returns for the empty-category input. -/
def emptyCatSrc : PlanInput := [("A", []), ("B", [{ action := "c", result := "d" }])]

/-- The flattened list `parsePlan` returns for the empty-category
input. -/
def emptyCatFlat : List FlatTest :=
  [{ id := "B-0-1", category := "B", action := "c", expected := "d", sequence := 1 }]

/-- Counterexample to C4 as stated: on an input with an empty category,
the parse succeeds but re-grouping the flattened list does not
reproduce the returned source — the empty category's key is lost. -/
theorem regroup_roundtrip_cex :
    parsePlan (some (Json.obj emptyCatEntries)) =
      Except.ok (emptyCatSrc, emptyCatFlat) ∧
    ¬(regroup emptyCatFlat = emptyCatSrc) := by
  refine ⟨rfl, ?_⟩
  decide

/-- Witness: the round-trip theorem applied to the sample plan. -/
theorem regroup_roundtrip_witness :
    (sampleEntries.map (fun e => trimStr e.1)).Nodup ∧
    (∀ p ∈ sampleSrc, p.2 ≠ ([] : List PlanGroup)) ∧
    regroup sampleFlat = sampleSrc :=
  ⟨by decide, by decide,
   regroup_roundtrip sampleEntries sampleSrc sampleFlat rfl (by decide)
     (by decide)⟩

/-- C8: on every successful parse, the ids of the flattened tests are
pairwise distinct — for all category names, including ones containing
the dash separator — because each id ends in the strictly increasing
global sequence number. -/
theorem parse_ids_unique (raw : Option Json) (src : PlanInput)
    (flat : List FlatTest) (hok : parsePlan raw = Except.ok (src, flat)) :
    flat.Pairwise (fun a b => ¬(a.id = b.id)) := by
  cases raw with
  | none => exact absurd hok (by simp [parsePlan])
  | some parsed =>
      cases parsed with
      | obj entries =>
          rcases parsePlan_ok_char entries src flat hok with ⟨bs, hb, hs, hf, hlen⟩
          subst hf
          rw [List.pairwise_iff_getElem]
          intro i j hi hj hij
          have hgi : (flatOfBlocks 1 bs)[i]? = some ((flatOfBlocks 1 bs)[i]) :=
            List.getElem?_eq_getElem hi
          have hgj : (flatOfBlocks 1 bs)[j]? = some ((flatOfBlocks 1 bs)[j]) :=
            List.getElem?_eq_getElem hj
          rcases flatOfBlocks_getElem? bs 1 i _ hgi with ⟨hsi, ci, ki, hidi⟩
          rcases flatOfBlocks_getElem? bs 1 j _ hgj with ⟨hsj, cj, kj, hidj⟩
          intro heq
          rw [hidi, hidj] at heq
          have := mkTestId_seq_eq heq
          omega
      | null => exact absurd hok (by simp [parsePlan])
      | bool b => exact absurd hok (by simp [parsePlan])
      | num n => exact absurd hok (by simp [parsePlan])
      | str s => exact absurd hok (by simp [parsePlan])
      | arr elems => exact absurd hok (by simp [parsePlan])

/-- Witness: id uniqueness applied to the sample plan. -/
theorem parse_ids_unique_witness :
    parsePlan (some sampleJson) = Except.ok (sampleSrc, sampleFlat) ∧
    sampleFlat.Pairwise (fun a b => ¬(a.id = b.id)) :=
  ⟨rfl, parse_ids_unique (some sampleJson) sampleSrc sampleFlat rfl⟩

end Testr
